import Mathlib

/-!
Verification development for the McAulay-Quatieri style sinusoidal modeling
core in src/js/app/mqAudio.js (functions detectPeaks, findCandidateIndex,
trackPartials, synthesize).

Modeling conventions:
* JS 64-bit floats are modeled by rationals; the claims settled here do not
  depend on rounding of nonzero values (they concern structure, exact zeros,
  and non-finite results).
* Math.sin is abstracted by a parameter s : Rat -> Rat; the source computes
  sin(FREQ_FACTOR * t * (freq + stepFreq*0.5*t)) with
  FREQ_FACTOR = 2*pi/samplingRate, which is modeled as
  s (t * (freq + stepFreq*(1/2)*t) / samplingRate), i.e. s stands for
  x mapsto sin(2*pi*x).  All theorems quantify over s.
* A JS division whose divisor is zero yields a non-finite value (NaN or an
  infinity); this is modeled by Option: jsDiv returns none exactly there.
* new Float64Array(n) for negative (or -Infinity) n throws a RangeError;
  synthesize models the thrown case (empty track list, where lodash max of
  an empty list is -Infinity) by returning none.
* lodash _.pull removes by object identity; in the source each pulled
  element is the unique array element with that identity, so it is modeled
  by List.eraseIdx at the index of the pulled element.
* lodash _.sortBy is a stable ascending sort by key, modeled by a stable
  insertion sort sortByKey.
* lodash _.sortedIndex is a binary search for the lowest insertion index;
  on sorted input (its only use here) it equals the count of the leading
  elements strictly below the probe, which is how sortedIndex is defined.
* lodash _.min(collection, callback) returns the first element attaining
  the minimal callback value (strict-less update), modeled by lodashMinBy.
* lodash _.last(array, n) returns the last n elements, modeled by
  List.drop (length - n).
* lodash _.max over the nonnegative values used here is modeled by
  List.foldl max 0.
-/

/-- A spectral peak: frequency in Hz and magnitude, as in the source comment
Peak = { freq:frequency, amp:magnitude }. -/
structure Peak where
  freq : ℚ
  amp : ℚ
deriving DecidableEq

/-- Default peak used only to express in-range list indexing totally. -/
def defaultPeak : Peak := ⟨0, 0⟩

/-- A partial track: Track = { birth:frameNumber, peaks:ArrayOfPeaks }. -/
structure Track where
  birth : ℕ
  peaks : List Peak
deriving DecidableEq

/-- Appends one peak to a track (track.peaks.push(p)). -/
def appendPeak (t : Track) (p : Peak) : Track := ⟨t.birth, t.peaks ++ [p]⟩

/-- The last peak of a track (_.last(track.peaks)); tracks built by the
source never have empty peaks, the default is for totality only. -/
def lastPeak (t : Track) : Peak := t.peaks.getLastD defaultPeak

/-- Current frequency of a track: the freq field of _.last(track.peaks),
the sort key trackComparison of the source. -/
def lastFreq (t : Track) : ℚ := (lastPeak t).freq

/-- The global matching radius of the source: var matchingThreshold = 200. -/
def matchingThreshold : ℚ := 200

/-- Stable insertion into a key-sorted list: the new element goes after all
existing elements with key less than or equal to its own. -/
def insertByKey {α : Type} (key : α → ℚ) (a : α) : List α → List α
  | [] => [a]
  | b :: l => if key a < key b then a :: b :: l else b :: insertByKey key a l

/-- Stable ascending sort by a rational key, modeling lodash _.sortBy. -/
def sortByKey {α : Type} (key : α → ℚ) : List α → List α
  | [] => []
  | a :: l => insertByKey key a (sortByKey key l)

/-- Lowest insertion index of c in l keeping ascending order; equals lodash
_.sortedIndex(l, c) on sorted input, its only use in the source. -/
def sortedIndex (l : List ℚ) (c : ℚ) : ℕ :=
  match l with
  | [] => 0
  | a :: l => if a < c then sortedIndex l c + 1 else 0

/-- Left fold keeping the first element attaining the minimal value of f,
as lodash _.min updates only on a strictly smaller criterion. -/
def minByAux (f : ℕ → ℚ) : ℕ → List ℕ → ℕ
  | best, [] => best
  | best, x :: xs => if f x < f best then minByAux f x xs else minByAux f best xs

/-- lodash _.min(collection, callback): none on an empty collection, else
the first element attaining the minimal callback value. -/
def lodashMinBy (f : ℕ → ℚ) : List ℕ → Option ℕ
  | [] => none
  | x :: xs => some (minByAux f x xs)

/-- findCandidateIndex of the source: candidate indices around the sorted
insertion point m.  Note the faithful quirk of line 73: the third push
tests nextPeaks[m] (not nextPeaks[m+1]) before pushing m+1. -/
def findCandidateIndex (curPeak : ℚ) (nextPeaks : List ℚ) : Option ℕ :=
  let m := sortedIndex nextPeaks curPeak
  let candidates : List ℕ :=
    (if m < nextPeaks.length ∧ |nextPeaks.getD m 0 - curPeak| ≤ matchingThreshold
      then [m] else [])
    ++ (if 0 < m ∧ |nextPeaks.getD (m - 1) 0 - curPeak| ≤ matchingThreshold
      then [m - 1] else [])
    ++ (if m + 1 < nextPeaks.length ∧ |nextPeaks.getD m 0 - curPeak| ≤ matchingThreshold
      then [m + 1] else [])
  lodashMinBy (fun v => |nextPeaks.getD v 0 - curPeak|) candidates

/-- Result of processing one track against the pool of next-frame peaks:
the track either dies (finalized with a zero-amplitude entry) or survives
with one appended peak and a reduced pool. -/
inductive StepResult where
  | death : Track → StepResult
  | survive : Track → List Peak → StepResult
deriving DecidableEq

/-- One iteration of the per-track loop of trackPartials (source lines
113-157).  rest holds the not-yet-processed tracks of the sorted snapshot;
the source computes unmatchedTrackFreqs from _(collection).rest(trackIdx),
which starts at the current track itself, hence track :: rest below. -/
def stepTrack (track : Track) (rest : List Track) (nextPeaks : List Peak) : StepResult :=
  let curFreq := lastFreq track
  let nextFreqs := nextPeaks.map Peak.freq
  match findCandidateIndex curFreq nextFreqs with
  | none => .death (appendPeak track ⟨curFreq, 0⟩)
  | some candidateIdx =>
    let unmatchedTrackFreqs := (track :: rest).map lastFreq
    let possibleTrackIdx := findCandidateIndex (nextFreqs.getD candidateIdx 0) unmatchedTrackFreqs
    let lower : StepResult :=
      if candidateIdx = 0 ∨ matchingThreshold < |nextFreqs.getD (candidateIdx - 1) 0 - curFreq|
      then .death (appendPeak track ⟨curFreq, 0⟩)
      else .survive (appendPeak track (nextPeaks.getD (candidateIdx - 1) defaultPeak))
        (nextPeaks.eraseIdx (candidateIdx - 1))
    match possibleTrackIdx with
    | none => lower
    | some j =>
      if unmatchedTrackFreqs.getD j 0 = curFreq
      then .survive (appendPeak track (nextPeaks.getD candidateIdx defaultPeak))
        (nextPeaks.eraseIdx candidateIdx)
      else lower

/-- Sequential processing of the sorted snapshot of active tracks for one
frame.  Returns (newly finalized tracks in death order, surviving tracks in
snapshot order, peaks left in the pool). -/
def processTracks : List Track → List Peak → List Track × List Track × List Peak
  | [], pool => ([], [], pool)
  | t :: rest, pool =>
    match stepTrack t rest pool with
    | .death t' =>
      let r := processTracks rest pool
      (t' :: r.1, r.2.1, r.2.2)
    | .survive t' pool' =>
      let r := processTracks rest pool'
      (r.1, t' :: r.2.1, r.2.2)

/-- Processing of one later frame (source lines 107-163): sort the active
tracks by current frequency, run the per-track loop, then turn every peak
remaining in the pool into a birth with a zero-amplitude first entry.
frameIdx is the index within the post-first-frame iteration, exactly the
forEach index of _(peaksFrames).rest() in the source. -/
def processFrame (st : List Track × List Track) (frameIdx : ℕ) (frame : List Peak) :
    List Track × List Track :=
  let r := processTracks (sortByKey lastFreq st.2) frame
  (st.1 ++ r.1,
    r.2.1 ++ r.2.2.map (fun peak => Track.mk frameIdx [⟨peak.freq, 0⟩, peak]))

/-- Folds processFrame over the remaining frames with a running index. -/
def processFrames : List Track × List Track → ℕ → List (List Peak) → List Track × List Track
  | st, _, [] => st
  | st, j, frame :: rest => processFrames (processFrame st j frame) (j + 1) rest

/-- Bootstrap: every peak of the first frame starts a track with birth 0. -/
def initialTracks (peaksFrames : List (List Peak)) : List Track :=
  (peaksFrames.headD []).map (fun peak => Track.mk 0 [peak])

/-- trackPartials of the source (the unused maxPeaks parameter is omitted):
finalized tracks in death order followed by the tracks still active after
the last frame. -/
def trackPartials (peaksFrames : List (List Peak)) : List Track :=
  let st := processFrames ([], initialTracks peaksFrames) 0 peaksFrames.tail
  st.1 ++ st.2

/-- State of trackPartials after the first n post-first-frame frames have
been processed: (finalized tracks, active tracks). -/
def stateAfter (peaksFrames : List (List Peak)) (n : ℕ) : List Track × List Track :=
  processFrames ([], initialTracks peaksFrames) 0 (peaksFrames.tail.take n)

/-- Per-frame naive peak detection (source lines 33-47): an interior bin is
a peak iff its magnitude strictly exceeds both neighbors and the threshold;
the frequency is the bin index times binFactor = sampleRate/(bins*2). -/
def detectFramePeaksRaw (frame : List ℚ) (sampleRate threshold : ℚ) : List Peak :=
  let bins := frame.length
  let binFactor := sampleRate / ((bins : ℚ) * 2)
  (List.range bins).filterMap (fun i =>
    if 1 ≤ i ∧ i + 1 < bins ∧ frame.getD (i - 1) 0 < frame.getD i 0
        ∧ frame.getD (i + 1) 0 < frame.getD i 0 ∧ threshold < frame.getD i 0
    then some ⟨(i : ℚ) * binFactor, frame.getD i 0⟩
    else none)

/-- detectPeaks of the source: per frame, the raw peaks sorted ascending by
frequency; with maxPeaks given, only the last maxPeaks entries are kept
(lodash _.last(framePeaks, maxPeaks)). -/
def detectPeaks (spectrogram : List (List ℚ)) (sampleRate threshold : ℚ)
    (maxPeaks : Option ℕ) : List (List Peak) :=
  spectrogram.map (fun frame =>
    let framePeaks := sortByKey Peak.freq (detectFramePeaksRaw frame sampleRate threshold)
    match maxPeaks with
    | none => framePeaks
    | some n => framePeaks.drop (framePeaks.length - n))

/-- JS division: none models the non-finite result (NaN or an infinity) a
zero divisor produces on the finite operands occurring here. -/
def jsDiv (a b : ℚ) : Option ℚ := if b = 0 then none else some (a / b)

/-- One sample accumulation: audioBuffer[i] += v.  List.set at an index
beyond the length is a no-op, as is a typed-array store out of range. -/
def writeSample (buf : List ℚ) (i : ℕ) (v : ℚ) : List ℚ := buf.set i (buf.getD i 0 + v)

/-- One linear-interpolation segment between consecutive peaks p and q,
spanning frameLen samples starting at buffer index i0 (source lines
195-209).  s abstracts x mapsto sin(2*pi*x); the dead locals instFreq and
instPhase of the source are omitted. -/
def writeSegment (s : ℚ → ℚ) (samplingRate : ℚ) (frameLen : ℕ) (p q : Peak)
    (i0 : ℕ) (buf : List ℚ) : List ℚ :=
  let stepFreq := (q.freq - p.freq) / (frameLen : ℚ)
  let stepAmp := (q.amp - p.amp) / (frameLen : ℚ)
  (List.range frameLen).foldl (fun b t =>
    writeSample b (i0 + t)
      (2 * (p.amp + stepAmp * (t : ℚ))
        * s ((t : ℚ) * (p.freq + stepFreq * (1 / 2) * (t : ℚ)) / samplingRate))) buf

/-- Renders one track: one segment per consecutive pair of peaks; the last
peak starts no segment (the early return of source line 185). -/
def renderTrack (s : ℚ → ℚ) (samplingRate : ℚ) (frameLen : ℕ) (buf : List ℚ)
    (tr : Track) : List ℚ :=
  (List.range (tr.peaks.length - 1)).foldl (fun b idxp =>
    writeSegment s samplingRate frameLen (tr.peaks.getD idxp defaultPeak)
      (tr.peaks.getD (idxp + 1) defaultPeak) ((tr.birth + idxp) * frameLen) b) buf

/-- numFrames of the source: the maximum of birth + peaks.length. -/
def numFrames (tracks : List Track) : ℕ :=
  (tracks.map (fun t => t.birth + t.peaks.length)).foldl max 0

/-- The accumulation buffer after all tracks are rendered, before the
normalization pass. -/
def renderedBuffer (s : ℚ → ℚ) (tracks : List Track) (frameLen : ℕ)
    (samplingRate : ℚ) : List ℚ :=
  tracks.foldl (renderTrack s samplingRate frameLen)
    (List.replicate (numFrames tracks * frameLen) 0)

/-- Maximum absolute value of a buffer: _(audioBuffer).map(abs).max(). -/
def maxAbs (l : List ℚ) : ℚ := (l.map (fun x => |x|)).foldl max 0

/-- synthesize of the source.  none models the RangeError thrown for an
empty track list (numFrames is then lodash max of an empty list, that is
-Infinity, and the Float64Array constructor throws); each inner none models
a non-finite sample produced by the unguarded division of line 217. -/
def synthesize (s : ℚ → ℚ) (tracks : List Track) (frameLen : ℕ)
    (samplingRate : ℚ) : Option (List (Option ℚ)) :=
  if tracks.isEmpty then none
  else
    let rendered := renderedBuffer s tracks frameLen samplingRate
    some (rendered.map (fun x => jsDiv x (maxAbs rendered)))

/-- Variant of stepTrack following the words of the specification for the
disambiguation step, for comparison with the source: it considers only the
tracks other than the current one (rest, not track :: rest) and treats the
candidate as a definitive match exactly when the nearest other-track
frequency does not equal the current frequency (or when no other track is
within the radius, in which case the current track is uniquely closest). -/
def stepTrackClaim (track : Track) (rest : List Track) (nextPeaks : List Peak) : StepResult :=
  let curFreq := lastFreq track
  let nextFreqs := nextPeaks.map Peak.freq
  match findCandidateIndex curFreq nextFreqs with
  | none => .death (appendPeak track ⟨curFreq, 0⟩)
  | some candidateIdx =>
    let otherTrackFreqs := rest.map lastFreq
    let possibleTrackIdx := findCandidateIndex (nextFreqs.getD candidateIdx 0) otherTrackFreqs
    let lower : StepResult :=
      if candidateIdx = 0 ∨ matchingThreshold < |nextFreqs.getD (candidateIdx - 1) 0 - curFreq|
      then .death (appendPeak track ⟨curFreq, 0⟩)
      else .survive (appendPeak track (nextPeaks.getD (candidateIdx - 1) defaultPeak))
        (nextPeaks.eraseIdx (candidateIdx - 1))
    match possibleTrackIdx with
    | none => .survive (appendPeak track (nextPeaks.getD candidateIdx defaultPeak))
        (nextPeaks.eraseIdx candidateIdx)
    | some j =>
      if otherTrackFreqs.getD j 0 = curFreq then lower
      else .survive (appendPeak track (nextPeaks.getD candidateIdx defaultPeak))
        (nextPeaks.eraseIdx candidateIdx)

/-- processTracks built on the claim-worded step. -/
def processTracksClaim : List Track → List Peak → List Track × List Track × List Peak
  | [], pool => ([], [], pool)
  | t :: rest, pool =>
    match stepTrackClaim t rest pool with
    | .death t' =>
      let r := processTracksClaim rest pool
      (t' :: r.1, r.2.1, r.2.2)
    | .survive t' pool' =>
      let r := processTracksClaim rest pool'
      (r.1, t' :: r.2.1, r.2.2)

/-- processFrame built on the claim-worded step. -/
def processFrameClaim (st : List Track × List Track) (frameIdx : ℕ) (frame : List Peak) :
    List Track × List Track :=
  let r := processTracksClaim (sortByKey lastFreq st.2) frame
  (st.1 ++ r.1,
    r.2.1 ++ r.2.2.map (fun peak => Track.mk frameIdx [⟨peak.freq, 0⟩, peak]))

/-- Frame loop built on the claim-worded step. -/
def processFramesClaim : List Track × List Track → ℕ → List (List Peak) → List Track × List Track
  | st, _, [] => st
  | st, j, frame :: rest => processFramesClaim (processFrameClaim st j frame) (j + 1) rest

/-- trackPartials built on the claim-worded disambiguation step. -/
def trackPartialsClaim (peaksFrames : List (List Peak)) : List Track :=
  let st := processFramesClaim ([], initialTracks peaksFrames) 0 peaksFrames.tail
  st.1 ++ st.2

/-- C1 counterexample: the sole peak of frame 1 is unmatched (there are no
active tracks) and starts a new track, but its birth field is 0, not 1 as
the claim states; the peaks sequence is the synthetic zero-amplitude entry
followed by the real peak. -/
theorem trackPartials_birth_counterexample :
    trackPartials [[], [⟨100, 1⟩]] = [⟨0, [⟨100, 0⟩, ⟨100, 1⟩]⟩]
      ∧ (0 : ℕ) ≠ 1 := by with_unfolding_all decide

/-- C3 counterexample: for c = 200 and the ascending list [100, 300], both
examined frequencies tie at distance 100 within the radius, yet the source
returns the insertion-point index 1 rather than no candidate as the claim
states. -/
theorem findCandidateIndex_tie_counterexample :
    findCandidateIndex 200 [100, 300] = some 1
      ∧ |(100 : ℚ) - 200| = |(300 : ℚ) - 200|
      ∧ some 1 ≠ (none : Option ℕ) := by
  refine ⟨by with_unfolding_all decide, by norm_num, by with_unfolding_all decide⟩

/-- C2 counterexample: on frames [[100, 150 Hz], [160 Hz]] the tracker of
the source lets the 100 Hz track die (the 150 Hz track is nearer to the
160 Hz candidate, and index k-1 does not exist) and extends the 150 Hz
track, while the algorithm described by the claim (considering only tracks
other than the current one and matching when the nearest other frequency
differs from c) would give 160 Hz to the 100 Hz track; the two pipelines
produce different track lists. -/
theorem trackPartials_disambiguation_counterexample :
    trackPartials [[⟨100, 1⟩, ⟨150, 1⟩], [⟨160, 1⟩]]
        = [⟨0, [⟨100, 1⟩, ⟨100, 0⟩]⟩, ⟨0, [⟨150, 1⟩, ⟨160, 1⟩]⟩]
      ∧ trackPartialsClaim [[⟨100, 1⟩, ⟨150, 1⟩], [⟨160, 1⟩]]
        = [⟨0, [⟨150, 1⟩, ⟨150, 0⟩]⟩, ⟨0, [⟨100, 1⟩, ⟨160, 1⟩]⟩]
      ∧ trackPartials [[⟨100, 1⟩, ⟨150, 1⟩], [⟨160, 1⟩]]
        ≠ trackPartialsClaim [[⟨100, 1⟩, ⟨150, 1⟩], [⟨160, 1⟩]] := by
  refine ⟨by with_unfolding_all decide, by with_unfolding_all decide, by with_unfolding_all decide⟩

/-- C4: the normalization pass of synthesize is not guarded: on a track
whose samples are all zero the maximum is zero and every sample becomes
0/0, a non-finite value (modeled by none), instead of the zero buffer the
claim requires. -/
theorem synthesize_zero_max_nan :
    synthesize (fun _ => 0) [⟨0, [⟨0, 0⟩, ⟨0, 0⟩]⟩] 1 1 = some [none, none]
      ∧ some [none, none] ≠ some [some (0 : ℚ), some (0 : ℚ)] := by
  refine ⟨by with_unfolding_all decide, by with_unfolding_all decide⟩

/-- C5: an empty frame list does yield an empty track list, but synthesize
on the empty track list does not return a zero-length buffer: numFrames is
the lodash maximum of an empty collection (-Infinity) and the Float64Array
constructor throws a RangeError, modeled by none. -/
theorem synthesize_empty_throws :
    trackPartials [] = []
      ∧ synthesize (fun _ => 0) (trackPartials []) 4 44100 = none := by
  refine ⟨by with_unfolding_all decide, by with_unfolding_all decide⟩

/-- The insertion index never exceeds the list length. -/
theorem sortedIndex_le_length (l : List ℚ) (c : ℚ) : sortedIndex l c ≤ l.length := by
  induction l with
  | nil => simp [sortedIndex]
  | cons a l ih =>
    simp only [sortedIndex, List.length_cons]
    split
    · exact Nat.succ_le_succ ih
    · exact Nat.zero_le _

/-- Entries strictly before the insertion index are strictly below c. -/
theorem getD_lt_of_lt_sortedIndex (l : List ℚ) (c : ℚ) :
    ∀ i, i < sortedIndex l c → l.getD i 0 < c := by
  induction l with
  | nil => intro i h; simp [sortedIndex] at h
  | cons a l ih =>
    intro i h
    simp only [sortedIndex] at h
    by_cases hac : a < c
    · rw [if_pos hac] at h
      cases i with
      | zero => simpa using hac
      | succ i => rw [List.getD_cons_succ]; exact ih i (Nat.lt_of_succ_lt_succ h)
    · rw [if_neg hac] at h
      exact absurd h (Nat.not_lt_zero i)

/-- The entry at the insertion index, when it exists, is at least c. -/
theorem le_getD_sortedIndex (l : List ℚ) (c : ℚ) :
    sortedIndex l c < l.length → c ≤ l.getD (sortedIndex l c) 0 := by
  induction l with
  | nil => intro h; simp [sortedIndex] at h
  | cons a l ih =>
    intro h
    by_cases hac : a < c
    · have heq : sortedIndex (a :: l) c = sortedIndex l c + 1 := by
        simp only [sortedIndex, if_pos hac]
      rw [heq] at h ⊢
      rw [List.getD_cons_succ]
      exact ih (by simpa using Nat.lt_of_succ_lt_succ (by simpa using h))
    · have heq : sortedIndex (a :: l) c = 0 := by
        simp only [sortedIndex, if_neg hac]
      rw [heq, List.getD_cons_zero]
      exact not_lt.mp hac

/-- Monotonicity of indexed access in a weakly ascending list. -/
theorem sorted_getD_mono (l : List ℚ) (hs : l.Chain' (· ≤ ·)) {i j : ℕ}
    (hij : i ≤ j) (hj : j < l.length) : l.getD i 0 ≤ l.getD j 0 := by
  rcases eq_or_lt_of_le hij with rfl | hlt
  · exact le_refl _
  · have hp := List.chain'_iff_pairwise.mp hs
    have hij' := List.pairwise_iff_getElem.mp hp i j (lt_trans hlt hj) hj hlt
    rwa [List.getD_eq_getElem _ _ (lt_trans hlt hj), List.getD_eq_getElem _ _ hj]

/-- The fold of lodash min keeps an element attaining the minimum; it moves
away from the initial best only for a strictly smaller value. -/
theorem minByAux_spec (f : ℕ → ℚ) : ∀ (l : List ℕ) (best : ℕ),
    (minByAux f best l = best
        ∨ (minByAux f best l ∈ l ∧ f (minByAux f best l) < f best))
      ∧ ∀ x ∈ l, f (minByAux f best l) ≤ f x := by
  intro l
  induction l with
  | nil => intro best; simp [minByAux]
  | cons x xs ih =>
    intro best
    simp only [minByAux]
    by_cases h : f x < f best
    · rw [if_pos h]
      obtain ⟨h1, h2⟩ := ih x
      refine ⟨?_, ?_⟩
      · rcases h1 with h1 | ⟨hm, hlt⟩
        · exact Or.inr ⟨by simp [h1], by rw [h1]; exact h⟩
        · exact Or.inr ⟨List.mem_cons_of_mem _ hm, lt_trans hlt h⟩
      · intro y hy
        rcases List.mem_cons.mp hy with rfl | hy
        · rcases h1 with h1 | ⟨_, hlt⟩
          · rw [h1]
          · exact le_of_lt hlt
        · exact h2 y hy
    · rw [if_neg h]
      obtain ⟨h1, h2⟩ := ih best
      refine ⟨?_, ?_⟩
      · rcases h1 with h1 | ⟨hm, hlt⟩
        · exact Or.inl h1
        · exact Or.inr ⟨List.mem_cons_of_mem _ hm, hlt⟩
      intro y hy
      rcases List.mem_cons.mp hy with rfl | hy
      · have hb : f (minByAux f best xs) ≤ f best := by
          rcases h1 with h1 | ⟨_, hlt⟩
          · rw [h1]
          · exact le_of_lt hlt
        exact le_trans hb (not_lt.mp h)
      · exact h2 y hy

/-- lodash min returns none exactly on the empty collection. -/
theorem lodashMinBy_eq_none_iff (f : ℕ → ℚ) (l : List ℕ) :
    lodashMinBy f l = none ↔ l = [] := by
  cases l <;> simp [lodashMinBy]

/-- Specification of lodash min on a nonempty collection: the result is a
member attaining the minimum, and it differs from the first element only
for a strictly smaller value (ties keep the earlier element). -/
theorem lodashMinBy_spec (f : ℕ → ℚ) (x : ℕ) (xs : List ℕ) (i : ℕ)
    (h : lodashMinBy f (x :: xs) = some i) :
    i ∈ x :: xs ∧ (∀ y ∈ x :: xs, f i ≤ f y) ∧ (i = x ∨ f i < f x) := by
  have hspec := minByAux_spec f xs x
  simp only [lodashMinBy, Option.some.injEq] at h
  subst h
  obtain ⟨h1, h2⟩ := hspec
  refine ⟨?_, ?_, ?_⟩
  · rcases h1 with h1 | ⟨hm, _⟩
    · rw [h1]; exact List.mem_cons_self _ _
    · exact List.mem_cons_of_mem _ hm
  · intro y hy
    rcases List.mem_cons.mp hy with rfl | hy
    · rcases h1 with h1 | ⟨_, hlt⟩
      · rw [h1]
      · exact le_of_lt hlt
    · exact h2 y hy
  · rcases h1 with h1 | ⟨_, hlt⟩
    · exact Or.inl h1
    · exact Or.inr hlt

/-- Membership in a conditional singleton. -/
theorem mem_ite_singleton {P : Prop} [Decidable P] {a i : ℕ}
    (h : i ∈ (if P then [a] else [])) : P ∧ i = a := by
  by_cases hP : P
  · rw [if_pos hP] at h; exact ⟨hP, List.mem_singleton.mp h⟩
  · rw [if_neg hP] at h; simp at h

/-- Distances to c grow to the right of c in a sorted list. -/
theorem abs_sub_mono_right {c x y : ℚ} (hc : c ≤ x) (hxy : x ≤ y) : |x - c| ≤ |y - c| := by
  rw [abs_of_nonneg (sub_nonneg.mpr hc), abs_of_nonneg (sub_nonneg.mpr (le_trans hc hxy))]
  exact sub_le_sub_right hxy c

/-- Distances to c grow to the left of c in a sorted list. -/
theorem abs_sub_mono_left {c x y : ℚ} (hxy : x ≤ y) (hyc : y < c) : |y - c| ≤ |x - c| := by
  rw [abs_of_neg (sub_neg.mpr hyc), abs_of_neg (sub_neg.mpr (lt_of_le_of_lt hxy hyc))]
  simp only [neg_sub]
  exact sub_le_sub_left hxy c

/-- Every member of a list is an in-range getD access. -/
theorem mem_getD (l : List ℚ) (x : ℚ) (hx : x ∈ l) :
    ∃ idx, idx < l.length ∧ l.getD idx 0 = x := by
  obtain ⟨i, hi, hgi⟩ := List.getElem_of_mem hx
  exact ⟨i, hi, by rw [List.getD_eq_getElem _ _ hi, hgi]⟩

/-- A conditional singleton is empty only when the condition fails. -/
theorem ite_singleton_ne_nil {P : Prop} [Decidable P] {a : ℕ}
    (h : (if P then [a] else ([] : List ℕ)) = []) : ¬P := by
  intro hP
  rw [if_pos hP] at h
  exact List.cons_ne_nil a [] h

/-- A returned candidate index is in range, with no sortedness needed. -/
theorem findCandidateIndex_some_lt (c : ℚ) (l : List ℚ) (i : ℕ)
    (h : findCandidateIndex c l = some i) : i < l.length := by
  have hml := sortedIndex_le_length l c
  simp only [findCandidateIndex] at h
  rcases hc : ((if sortedIndex l c < l.length
        ∧ |l.getD (sortedIndex l c) 0 - c| ≤ matchingThreshold
      then [sortedIndex l c] else [])
    ++ (if 0 < sortedIndex l c
        ∧ |l.getD (sortedIndex l c - 1) 0 - c| ≤ matchingThreshold
      then [sortedIndex l c - 1] else [])
    ++ (if sortedIndex l c + 1 < l.length
        ∧ |l.getD (sortedIndex l c) 0 - c| ≤ matchingThreshold
      then [sortedIndex l c + 1] else [])) with c0 | ⟨x, xs⟩
  · rw [hc] at h; simp [lodashMinBy] at h
  · rw [hc] at h
    obtain ⟨hmem, -, -⟩ := lodashMinBy_spec _ _ _ _ h
    rw [← hc] at hmem
    rcases List.mem_append.mp hmem with hmem | hmem3
    · rcases List.mem_append.mp hmem with hmem1 | hmem2
      · obtain ⟨hP, rfl⟩ := mem_ite_singleton hmem1
        exact hP.1
      · obtain ⟨hP, rfl⟩ := mem_ite_singleton hmem2
        omega
    · obtain ⟨hP, rfl⟩ := mem_ite_singleton hmem3
      omega

/-- In a sorted list, an index whose distance to c is at most the distance
of both neighbors of the insertion point attains the global minimum. -/
theorem global_min_of_two (c : ℚ) (l : List ℚ) (hs : l.Chain' (fun a b => a ≤ b)) (i : ℕ)
    (hleft : sortedIndex l c = 0
      ∨ (sortedIndex l c - 1 < l.length
          ∧ |l.getD i 0 - c| ≤ |l.getD (sortedIndex l c - 1) 0 - c|))
    (hright : sortedIndex l c = l.length
      ∨ (sortedIndex l c < l.length
          ∧ |l.getD i 0 - c| ≤ |l.getD (sortedIndex l c) 0 - c|)) :
    ∀ x ∈ l, |l.getD i 0 - c| ≤ |x - c| := by
  intro x hx
  obtain ⟨idx, hidx, rfl⟩ := mem_getD l x hx
  rcases Nat.lt_or_ge idx (sortedIndex l c) with hlt | hge
  · rcases hleft with h0 | ⟨hlen1, hle1⟩
    · omega
    · refine le_trans hle1 ?_
      have hxc : l.getD (sortedIndex l c - 1) 0 < c :=
        getD_lt_of_lt_sortedIndex l c _ (by omega)
      exact abs_sub_mono_left (sorted_getD_mono l hs (by omega) hlen1) hxc
  · rcases hright with h0 | ⟨hlen2, hle2⟩
    · omega
    · refine le_trans hle2 ?_
      have hcm : c ≤ l.getD (sortedIndex l c) 0 := le_getD_sortedIndex l c hlen2
      exact abs_sub_mono_right hcm (sorted_getD_mono l hs hge hidx)

/-- On a sorted list the candidate search returns an in-range index within
the matching radius, located at the insertion point or one below it, whose
distance to c is minimal over the whole list. -/
theorem findCandidateIndex_sorted_min (c : ℚ) (l : List ℚ)
    (hs : l.Chain' (fun a b => a ≤ b)) (i : ℕ) (h : findCandidateIndex c l = some i) :
    i < l.length ∧ |l.getD i 0 - c| ≤ matchingThreshold
      ∧ (i = sortedIndex l c ∨ i = sortedIndex l c - 1)
      ∧ ∀ x ∈ l, |l.getD i 0 - c| ≤ |x - c| := by
  have hml := sortedIndex_le_length l c
  simp only [findCandidateIndex] at h
  by_cases hP1 : sortedIndex l c < l.length
      ∧ |l.getD (sortedIndex l c) 0 - c| ≤ matchingThreshold
  · rw [if_pos hP1, List.append_assoc, List.singleton_append] at h
    obtain ⟨hmem, hmin, hfirst⟩ := lodashMinBy_spec _ _ _ _ h
    have hcm : c ≤ l.getD (sortedIndex l c) 0 := le_getD_sortedIndex l c hP1.1
    rcases List.mem_cons.mp hmem with rfl | hmem'
    · refine ⟨hP1.1, hP1.2, Or.inl rfl, ?_⟩
      refine global_min_of_two c l hs _ ?_ (Or.inr ⟨hP1.1, le_refl _⟩)
      rcases Nat.eq_zero_or_pos (sortedIndex l c) with h0 | hpos
      · exact Or.inl h0
      · refine Or.inr ⟨by omega, ?_⟩
        by_cases hP2 : 0 < sortedIndex l c
            ∧ |l.getD (sortedIndex l c - 1) 0 - c| ≤ matchingThreshold
        · refine hmin _ (List.mem_cons_of_mem _ (List.mem_append_left _ ?_))
          rw [if_pos hP2]
          exact List.mem_singleton.mpr rfl
        · have hfar : matchingThreshold < |l.getD (sortedIndex l c - 1) 0 - c| := by
            by_contra hnear
            exact hP2 ⟨hpos, not_lt.mp hnear⟩
          exact le_of_lt (lt_of_le_of_lt hP1.2 hfar)
    · rcases List.mem_append.mp hmem' with hmem2 | hmem3
      · obtain ⟨hP2, rfl⟩ := mem_ite_singleton hmem2
        refine ⟨by omega, hP2.2, Or.inr rfl, ?_⟩
        refine global_min_of_two c l hs _ (Or.inr ⟨by omega, le_refl _⟩)
          (Or.inr ⟨hP1.1, ?_⟩)
        refine hmin _ ?_
        exact List.mem_cons_self _ _
      · obtain ⟨hP3, rfl⟩ := mem_ite_singleton hmem3
        have hne : sortedIndex l c + 1 ≠ sortedIndex l c := by omega
        have hflt := hfirst.resolve_left hne
        have hfge : |l.getD (sortedIndex l c) 0 - c|
            ≤ |l.getD (sortedIndex l c + 1) 0 - c| :=
          abs_sub_mono_right hcm (sorted_getD_mono l hs (Nat.le_succ _) hP3.1)
        exact absurd hflt (not_lt.mpr hfge)
  · rw [if_neg hP1, List.nil_append] at h
    have hP3 : ¬(sortedIndex l c + 1 < l.length
        ∧ |l.getD (sortedIndex l c) 0 - c| ≤ matchingThreshold) :=
      fun h3 => hP1 ⟨Nat.lt_of_succ_lt h3.1, h3.2⟩
    rw [if_neg hP3, List.append_nil] at h
    by_cases hP2 : 0 < sortedIndex l c
        ∧ |l.getD (sortedIndex l c - 1) 0 - c| ≤ matchingThreshold
    · rw [if_pos hP2] at h
      obtain ⟨hmem, hmin, hfirst⟩ := lodashMinBy_spec _ _ _ _ h
      have hieq : i = sortedIndex l c - 1 := List.mem_singleton.mp hmem
      subst hieq
      refine ⟨by omega, hP2.2, Or.inr rfl, ?_⟩
      refine global_min_of_two c l hs _ (Or.inr ⟨by omega, le_refl _⟩) ?_
      rcases Nat.eq_or_lt_of_le hml with heq | hlt
      · exact Or.inl heq
      · refine Or.inr ⟨hlt, ?_⟩
        have hfar : matchingThreshold < |l.getD (sortedIndex l c) 0 - c| := by
          by_contra hnear
          exact hP1 ⟨hlt, not_lt.mp hnear⟩
        exact le_of_lt (lt_of_le_of_lt hP2.2 hfar)
    · rw [if_neg hP2] at h
      simp [lodashMinBy] at h

/-- On a sorted list the candidate search yields no candidate exactly when
every list element is farther than the matching radius from c. -/
theorem findCandidateIndex_sorted_none_iff (c : ℚ) (l : List ℚ)
    (hs : l.Chain' (fun a b => a ≤ b)) :
    findCandidateIndex c l = none ↔ ∀ x ∈ l, matchingThreshold < |x - c| := by
  have hml := sortedIndex_le_length l c
  constructor
  · intro h x hx
    simp only [findCandidateIndex] at h
    rw [lodashMinBy_eq_none_iff] at h
    obtain ⟨h12, h3⟩ := List.append_eq_nil.mp h
    obtain ⟨h1, h2⟩ := List.append_eq_nil.mp h12
    have hnP1 := ite_singleton_ne_nil h1
    have hnP2 := ite_singleton_ne_nil h2
    obtain ⟨idx, hidx, rfl⟩ := mem_getD l x hx
    rcases Nat.lt_or_ge idx (sortedIndex l c) with hlt | hge
    · have hfar : matchingThreshold < |l.getD (sortedIndex l c - 1) 0 - c| := by
        by_contra hnear
        exact hnP2 ⟨by omega, not_lt.mp hnear⟩
      refine lt_of_lt_of_le hfar ?_
      have hxc : l.getD (sortedIndex l c - 1) 0 < c :=
        getD_lt_of_lt_sortedIndex l c _ (by omega)
      exact abs_sub_mono_left (sorted_getD_mono l hs (by omega) (by omega)) hxc
    · have hfar : matchingThreshold < |l.getD (sortedIndex l c) 0 - c| := by
        by_contra hnear
        exact hnP1 ⟨by omega, not_lt.mp hnear⟩
      refine lt_of_lt_of_le hfar ?_
      have hcm : c ≤ l.getD (sortedIndex l c) 0 := le_getD_sortedIndex l c (by omega)
      exact abs_sub_mono_right hcm (sorted_getD_mono l hs hge hidx)
  · intro hfar
    simp only [findCandidateIndex]
    have hnP1 : ¬(sortedIndex l c < l.length
        ∧ |l.getD (sortedIndex l c) 0 - c| ≤ matchingThreshold) := by
      rintro ⟨hlen, hnear⟩
      have hmem : l.getD (sortedIndex l c) 0 ∈ l := by
        rw [List.getD_eq_getElem _ _ hlen]; exact List.getElem_mem _
      exact absurd hnear (not_le.mpr (hfar _ hmem))
    have hnP2 : ¬(0 < sortedIndex l c
        ∧ |l.getD (sortedIndex l c - 1) 0 - c| ≤ matchingThreshold) := by
      rintro ⟨hpos, hnear⟩
      have hmem : l.getD (sortedIndex l c - 1) 0 ∈ l := by
        rw [List.getD_eq_getElem _ _ (by omega)]; exact List.getElem_mem _
      exact absurd hnear (not_le.mpr (hfar _ hmem))
    have hnP3 : ¬(sortedIndex l c + 1 < l.length
        ∧ |l.getD (sortedIndex l c) 0 - c| ≤ matchingThreshold) :=
      fun h3 => hnP1 ⟨Nat.lt_of_succ_lt h3.1, h3.2⟩
    rw [if_neg hnP1, if_neg hnP2, if_neg hnP3]
    rfl

/-- On a sorted list, when the entries at the insertion point and just
below it are both within the radius and tie in distance, the search keeps
the insertion-point index (the first pushed candidate), not none. -/
theorem findCandidateIndex_sorted_tie (c : ℚ) (l : List ℚ)
    (hs : l.Chain' (fun a b => a ≤ b))
    (h1 : sortedIndex l c < l.length) (h2 : 0 < sortedIndex l c)
    (hr : |l.getD (sortedIndex l c) 0 - c| ≤ matchingThreshold)
    (heq : |l.getD (sortedIndex l c - 1) 0 - c| = |l.getD (sortedIndex l c) 0 - c|) :
    findCandidateIndex c l = some (sortedIndex l c) := by
  simp only [findCandidateIndex]
  rw [if_pos ⟨h1, hr⟩, if_pos ⟨h2, heq ▸ hr⟩]
  by_cases hP3 : sortedIndex l c + 1 < l.length
      ∧ |l.getD (sortedIndex l c) 0 - c| ≤ matchingThreshold
  · rw [if_pos hP3]
    simp only [List.append_assoc, List.singleton_append, List.cons_append,
      List.nil_append, lodashMinBy, minByAux]
    rw [if_neg (by rw [heq]; exact lt_irrefl _)]
    have hcm : c ≤ l.getD (sortedIndex l c) 0 := le_getD_sortedIndex l c h1
    have hge : |l.getD (sortedIndex l c) 0 - c| ≤ |l.getD (sortedIndex l c + 1) 0 - c| :=
      abs_sub_mono_right hcm (sorted_getD_mono l hs (Nat.le_succ _) hP3.1)
    rw [if_neg (not_lt.mpr hge)]
  · rw [if_neg hP3, List.append_nil]
    simp only [List.singleton_append, lodashMinBy, minByAux]
    rw [if_neg (by rw [heq]; exact lt_irrefl _)]

/-- C3 (amended): for every frequency c and ascending-sorted list, the
candidate search examines at most the three positions m-1, m, m+1 around
the insertion point m, returns an index located at m or m-1 whose
frequency is within the matching radius and has minimal absolute
difference from c over the whole list, and returns no candidate exactly
when no list element is within the radius; when the entries at m and m-1
tie for the minimum it returns m (the insertion point), not no candidate. -/
theorem findCandidateIndex_spec (c : ℚ) (l : List ℚ)
    (hs : l.Chain' (fun a b => a ≤ b)) :
    (findCandidateIndex c l = none ↔ ∀ x ∈ l, matchingThreshold < |x - c|)
      ∧ (∀ i, findCandidateIndex c l = some i →
          i < l.length ∧ |l.getD i 0 - c| ≤ matchingThreshold
            ∧ (i = sortedIndex l c ∨ i = sortedIndex l c - 1)
            ∧ ∀ x ∈ l, |l.getD i 0 - c| ≤ |x - c|)
      ∧ (sortedIndex l c < l.length → 0 < sortedIndex l c →
          |l.getD (sortedIndex l c) 0 - c| ≤ matchingThreshold →
          |l.getD (sortedIndex l c - 1) 0 - c| = |l.getD (sortedIndex l c) 0 - c| →
          findCandidateIndex c l = some (sortedIndex l c)) :=
  ⟨findCandidateIndex_sorted_none_iff c l hs,
   fun i h => findCandidateIndex_sorted_min c l hs i h,
   fun h1 h2 hr heq => findCandidateIndex_sorted_tie c l hs h1 h2 hr heq⟩

/-- Concrete instance of the amended C3 statement at c = 100 over the
sorted list [150, 400]. -/
theorem findCandidateIndex_spec_witness :
    ([(150 : ℚ), 400].Chain' (fun a b => a ≤ b))
      ∧ ((findCandidateIndex 100 [150, 400] = none
            ↔ ∀ x ∈ [(150 : ℚ), 400], matchingThreshold < |x - 100|)
        ∧ (∀ i, findCandidateIndex 100 [150, 400] = some i →
            i < [(150 : ℚ), 400].length
              ∧ |[(150 : ℚ), 400].getD i 0 - 100| ≤ matchingThreshold
              ∧ (i = sortedIndex [150, 400] 100 ∨ i = sortedIndex [150, 400] 100 - 1)
              ∧ ∀ x ∈ [(150 : ℚ), 400], |[(150 : ℚ), 400].getD i 0 - 100| ≤ |x - 100|)
        ∧ (sortedIndex [150, 400] 100 < [(150 : ℚ), 400].length →
            0 < sortedIndex [150, 400] 100 →
            |[(150 : ℚ), 400].getD (sortedIndex [150, 400] 100) 0 - 100| ≤ matchingThreshold →
            |[(150 : ℚ), 400].getD (sortedIndex [150, 400] 100 - 1) 0 - 100|
              = |[(150 : ℚ), 400].getD (sortedIndex [150, 400] 100) 0 - 100| →
            findCandidateIndex 100 [150, 400] = some (sortedIndex [150, 400] 100))) :=
  ⟨by norm_num [List.chain'_cons, List.chain'_singleton],
   findCandidateIndex_spec 100 [150, 400]
     (by norm_num [List.chain'_cons, List.chain'_singleton])⟩

/-- Strict monotonicity of indexed access in a strictly ascending list. -/
theorem sorted_getD_strict (l : List ℚ) (hs : l.Chain' (fun a b => a < b)) {i j : ℕ}
    (hij : i < j) (hj : j < l.length) : l.getD i 0 < l.getD j 0 := by
  have hp := List.chain'_iff_pairwise.mp hs
  have hr := List.pairwise_iff_getElem.mp hp i j (lt_trans hij hj) hj hij
  rwa [List.getD_eq_getElem _ _ (lt_trans hij hj), List.getD_eq_getElem _ _ hj]

/-- In-range getD commutes with mapping the frequency projection. -/
theorem getD_map_freq (pool : List Peak) (i : ℕ) (h : i < pool.length) :
    (pool.map Peak.freq).getD i 0 = (pool.getD i defaultPeak).freq := by
  rw [List.getD_eq_getElem _ _ (by simpa using h), List.getD_eq_getElem _ _ h,
    List.getElem_map]

/-- Appending distinct peaks to the same track gives distinct tracks. -/
theorem appendPeak_inj {t : Track} {p q : Peak} (h : appendPeak t p = appendPeak t q) :
    p = q := by
  simp only [appendPeak, Track.mk.injEq] at h
  have h2 := List.append_cancel_left h.2
  simpa using h2

/-- The lower-or-death branch of stepTrack never produces the survive
result for the candidate index itself, on a strictly ascending pool. -/
theorem lower_branch_ne_survive (track : Track) (pool : List Peak) (k : ℕ)
    (hpool : (List.map Peak.freq pool).Chain' (fun a b => a < b))
    (hklen : k < pool.length) :
    (if k = 0 ∨ matchingThreshold < |(List.map Peak.freq pool).getD (k - 1) 0 - lastFreq track|
      then StepResult.death (appendPeak track ⟨lastFreq track, 0⟩)
      else StepResult.survive (appendPeak track (pool.getD (k - 1) defaultPeak))
        (pool.eraseIdx (k - 1)))
      ≠ StepResult.survive (appendPeak track (pool.getD k defaultPeak)) (pool.eraseIdx k) := by
  intro hres
  by_cases hlow : k = 0
      ∨ matchingThreshold < |(List.map Peak.freq pool).getD (k - 1) 0 - lastFreq track|
  · rw [if_pos hlow] at hres
    exact StepResult.noConfusion hres
  · rw [if_neg hlow] at hres
    have hk0 : 0 < k := by
      rcases Nat.eq_zero_or_pos k with h0 | h
      · exact absurd (Or.inl h0) hlow
      · exact h
    injection hres with h1 h2
    have hpq := appendPeak_inj h1
    have hlt : (List.map Peak.freq pool).getD (k - 1) 0 < (List.map Peak.freq pool).getD k 0 :=
      sorted_getD_strict _ hpool (by omega) (by simpa using hklen)
    rw [getD_map_freq _ _ (by omega), getD_map_freq _ _ hklen, hpq] at hlt
    exact lt_irrefl _ hlt

/-- C2 (amended): when a track T with current frequency c has found a
candidate peak at index k in a later frame, the tracker considers T itself
together with the tracks not yet processed this frame (the sorted snapshot
suffix beginning at T), finds among their current frequencies the one
nearest to nextPeaks[k].freq within the matching radius, and appends
nextPeaks[k] to T (removing it from the pool) exactly when that nearest
frequency equals c; otherwise T attempts the peak at index k-1, taking it
if it exists and is within the matching radius of c, and dies otherwise.
Semantically, over sorted inputs: if c is the unique distance minimizer
among the suffix frequencies then T takes peak k; if T takes peak k then c
is within the radius of the candidate and minimizes the distance; and if
some other suffix frequency is strictly nearer to the candidate than c,
the lower-or-death branch runs. -/
theorem stepTrack_disambiguation (track : Track) (rest : List Track) (pool : List Peak)
    (k : ℕ)
    (hsuf : (List.map lastFreq (track :: rest)).Chain' (fun a b => a ≤ b))
    (hpool : (List.map Peak.freq pool).Chain' (fun a b => a < b))
    (hk : findCandidateIndex (lastFreq track) (List.map Peak.freq pool) = some k) :
    ((∀ y ∈ List.map lastFreq (track :: rest), y ≠ lastFreq track →
        |lastFreq track - (List.map Peak.freq pool).getD k 0|
          < |y - (List.map Peak.freq pool).getD k 0|) →
      stepTrack track rest pool
        = .survive (appendPeak track (pool.getD k defaultPeak)) (pool.eraseIdx k))
    ∧ (stepTrack track rest pool
        = .survive (appendPeak track (pool.getD k defaultPeak)) (pool.eraseIdx k) →
      |lastFreq track - (List.map Peak.freq pool).getD k 0| ≤ matchingThreshold
        ∧ ∀ y ∈ List.map lastFreq (track :: rest),
            |lastFreq track - (List.map Peak.freq pool).getD k 0|
              ≤ |y - (List.map Peak.freq pool).getD k 0|)
    ∧ ((∃ y ∈ List.map lastFreq (track :: rest), y ≠ lastFreq track
          ∧ |y - (List.map Peak.freq pool).getD k 0|
              < |lastFreq track - (List.map Peak.freq pool).getD k 0|) →
      stepTrack track rest pool
        = if 0 < k ∧ |(List.map Peak.freq pool).getD (k - 1) 0 - lastFreq track|
              ≤ matchingThreshold
          then .survive (appendPeak track (pool.getD (k - 1) defaultPeak))
            (pool.eraseIdx (k - 1))
          else .death (appendPeak track ⟨lastFreq track, 0⟩)) := by
  have hpool_le : (List.map Peak.freq pool).Chain' (fun a b => a ≤ b) :=
    hpool.imp (fun _ _ h => le_of_lt h)
  obtain ⟨hklen, hknear, -, -⟩ := findCandidateIndex_sorted_min _ _ hpool_le k hk
  have hklen' : k < pool.length := by simpa using hklen
  have hcnear : |lastFreq track - (List.map Peak.freq pool).getD k 0| ≤ matchingThreshold := by
    rw [abs_sub_comm]; exact hknear
  have hcmem : lastFreq track ∈ List.map lastFreq (track :: rest) := by
    rw [List.map_cons]; exact List.mem_cons_self _ _
  refine ⟨?_, ?_, ?_⟩
  · intro huniq
    rcases hposs : findCandidateIndex ((List.map Peak.freq pool).getD k 0)
        (List.map lastFreq (track :: rest)) with _ | j
    · exfalso
      have hfar := (findCandidateIndex_sorted_none_iff _ _ hsuf).mp hposs
      exact absurd hcnear (not_le.mpr (hfar _ hcmem))
    · obtain ⟨hjlen, hjnear, -, hjmin⟩ := findCandidateIndex_sorted_min _ _ hsuf j hposs
      have hval : (List.map lastFreq (track :: rest)).getD j 0 = lastFreq track := by
        by_contra hne
        have hmem : (List.map lastFreq (track :: rest)).getD j 0
            ∈ List.map lastFreq (track :: rest) := by
          rw [List.getD_eq_getElem _ _ hjlen]
          exact List.getElem_mem _
        exact absurd (huniq _ hmem hne) (not_lt.mpr (hjmin _ hcmem))
      simp only [stepTrack, hk, hposs]
      rw [if_pos hval]
  · intro hres
    rcases hposs : findCandidateIndex ((List.map Peak.freq pool).getD k 0)
        (List.map lastFreq (track :: rest)) with _ | j
    · exfalso
      simp only [stepTrack, hk, hposs] at hres
      exact lower_branch_ne_survive track pool k hpool hklen' hres
    · by_cases hval : (List.map lastFreq (track :: rest)).getD j 0 = lastFreq track
      · obtain ⟨hjlen, hjnear, -, hjmin⟩ := findCandidateIndex_sorted_min _ _ hsuf j hposs
        refine ⟨hcnear, ?_⟩
        intro y hy
        have hm := hjmin y hy
        rwa [hval] at hm
      · exfalso
        simp only [stepTrack, hk, hposs] at hres
        rw [if_neg hval] at hres
        exact lower_branch_ne_survive track pool k hpool hklen' hres
  · rintro ⟨y, hy, hyne, hylt⟩
    rcases hposs : findCandidateIndex ((List.map Peak.freq pool).getD k 0)
        (List.map lastFreq (track :: rest)) with _ | j
    · exfalso
      have hfar := (findCandidateIndex_sorted_none_iff _ _ hsuf).mp hposs
      exact absurd hcnear (not_le.mpr (lt_trans (hfar y hy) hylt))
    · obtain ⟨hjlen, hjnear, -, hjmin⟩ := findCandidateIndex_sorted_min _ _ hsuf j hposs
      have hval : ¬((List.map lastFreq (track :: rest)).getD j 0 = lastFreq track) := by
        intro heq
        have hm := hjmin y hy
        rw [heq] at hm
        exact absurd hylt (not_lt.mpr hm)
      simp only [stepTrack, hk, hposs]
      rw [if_neg hval]
      by_cases hcond : 0 < k
          ∧ |(List.map Peak.freq pool).getD (k - 1) 0 - lastFreq track| ≤ matchingThreshold
      · have hnlow : ¬(k = 0
            ∨ matchingThreshold < |(List.map Peak.freq pool).getD (k - 1) 0 - lastFreq track|) := by
          rintro (h0 | hgt)
          · omega
          · exact absurd hcond.2 (not_le.mpr hgt)
        rw [if_neg hnlow, if_pos hcond]
      · have hlow : k = 0
            ∨ matchingThreshold < |(List.map Peak.freq pool).getD (k - 1) 0 - lastFreq track| := by
          by_contra hn
          push_neg at hn
          exact hcond ⟨Nat.pos_of_ne_zero hn.1, hn.2⟩
        rw [if_pos hlow, if_neg hcond]

/-- Concrete instance of the amended C2 statement: a lone 100 Hz track is
the unique nearest track to the 150 Hz candidate and takes it. -/
theorem stepTrack_disambiguation_witness :
    stepTrack ⟨0, [⟨100, 1⟩]⟩ [] [⟨150, 2⟩]
      = .survive (appendPeak ⟨0, [⟨100, 1⟩]⟩ ([(⟨150, 2⟩ : Peak)].getD 0 defaultPeak))
        ([(⟨150, 2⟩ : Peak)].eraseIdx 0) := by
  have h := stepTrack_disambiguation ⟨0, [⟨100, 1⟩]⟩ [] [⟨150, 2⟩] 0
    (by simp) (by simp) (by with_unfolding_all decide)
  exact h.1 (fun y hy hne => absurd (by simpa using hy) hne)

/-- With positive sample rate the raw peak list has pairwise strictly
increasing frequencies (bin indices increase and binFactor is positive). -/
theorem detectFramePeaksRaw_pairwise (frame : List ℚ) (sampleRate threshold : ℚ)
    (hsr : 0 < sampleRate) :
    (detectFramePeaksRaw frame sampleRate threshold).Pairwise
      (fun p q => p.freq < q.freq) := by
  rw [detectFramePeaksRaw]
  refine List.pairwise_filterMap.mpr ?_
  refine (List.pairwise_lt_range frame.length).imp ?_
  intro i j hij p hp q hq
  simp only [Option.mem_def] at hp hq
  split at hp
  · split at hq
    · rename_i hci hcj
      rw [Option.some.injEq] at hp hq
      subst hp
      subst hq
      have hbins : 0 < frame.length := by omega
      have hbf : 0 < sampleRate / ((frame.length : ℚ) * 2) := by
        apply div_pos hsr
        have : (0 : ℚ) < (frame.length : ℚ) := by exact_mod_cast hbins
        linarith
      have hcast : (i : ℚ) < (j : ℚ) := by exact_mod_cast hij
      exact mul_lt_mul_of_pos_right hcast hbf
    · simp at hq
  · simp at hp

/-- The raw per-frame peak list is strictly ascending in frequency. -/
theorem detectFramePeaksRaw_chain (frame : List ℚ) (sampleRate threshold : ℚ)
    (hsr : 0 < sampleRate) :
    (detectFramePeaksRaw frame sampleRate threshold).Chain'
      (fun p q => p.freq < q.freq) :=
  (detectFramePeaksRaw_pairwise frame sampleRate threshold hsr).chain'

/-- A stable sort by key leaves a strictly key-ascending list unchanged. -/
theorem sortByKey_eq_of_chain {α : Type} (key : α → ℚ) (l : List α)
    (h : l.Chain' (fun a b => key a < key b)) : sortByKey key l = l := by
  induction l with
  | nil => rfl
  | cons a l ih =>
    rw [sortByKey, ih h.tail]
    cases l with
    | nil => rfl
    | cons b l' =>
      rw [insertByKey, if_pos (List.chain'_cons.mp h).1]

/-- Membership characterization of the raw per-frame peak list. -/
theorem mem_detectFramePeaksRaw (frame : List ℚ) (sampleRate threshold : ℚ) (p : Peak) :
    p ∈ detectFramePeaksRaw frame sampleRate threshold
      ↔ ∃ i, 1 ≤ i ∧ i + 1 < frame.length
          ∧ frame.getD (i - 1) 0 < frame.getD i 0
          ∧ frame.getD (i + 1) 0 < frame.getD i 0
          ∧ threshold < frame.getD i 0
          ∧ p = ⟨(i : ℚ) * (sampleRate / ((frame.length : ℚ) * 2)), frame.getD i 0⟩ := by
  rw [detectFramePeaksRaw]
  simp only [List.mem_filterMap, List.mem_range]
  constructor
  · rintro ⟨i, hi, hp⟩
    split at hp
    · rename_i hc
      rw [Option.some.injEq] at hp
      exact ⟨i, hc.1, hc.2.1, hc.2.2.1, hc.2.2.2.1, hc.2.2.2.2, hp.symm⟩
    · simp at hp
  · rintro ⟨i, h1, h2, h3, h4, h5, rfl⟩
    refine ⟨i, by omega, ?_⟩
    rw [if_pos ⟨h1, h2, h3, h4, h5⟩]

/-- The two equivalent writings of the peak frequency formula. -/
theorem freq_formula (i : ℕ) (sr : ℚ) (b : ℚ) :
    (i : ℚ) * (sr / (b * 2)) = (i : ℚ) * sr / (2 * b) := by
  rw [mul_comm b 2, mul_div_assoc]

/-- Indexing the per-frame output of detectPeaks without a peak cap. -/
theorem detectPeaks_getD_none (spectrogram : List (List ℚ)) (sr th : ℚ)
    (j : ℕ) (hj : j < spectrogram.length) :
    (detectPeaks spectrogram sr th none).getD j []
      = sortByKey Peak.freq (detectFramePeaksRaw (spectrogram.getD j []) sr th) := by
  rw [detectPeaks, List.getD_eq_getElem _ _ (by simpa using hj),
    List.getD_eq_getElem _ _ hj, List.getElem_map]

/-- Indexing the per-frame output of detectPeaks with a peak cap. -/
theorem detectPeaks_getD_some (spectrogram : List (List ℚ)) (sr th : ℚ) (n : ℕ)
    (j : ℕ) (hj : j < spectrogram.length) :
    (detectPeaks spectrogram sr th (some n)).getD j []
      = (sortByKey Peak.freq (detectFramePeaksRaw (spectrogram.getD j []) sr th)).drop
          ((sortByKey Peak.freq (detectFramePeaksRaw (spectrogram.getD j []) sr th)).length
            - n) := by
  rw [detectPeaks, List.getD_eq_getElem _ _ (by simpa using hj),
    List.getD_eq_getElem _ _ hj, List.getElem_map]

/-- C6: for every spectrogram frame and positive sample rate, detectPeaks
without maxPeaks returns exactly the peaks of the interior bins whose
magnitude strictly exceeds both neighbors and the threshold, with
frequency i * sampleRate / (2 * numBins), in strictly ascending frequency
order; every returned amplitude exceeds the threshold, and a frame with
fewer than 3 bins yields no peaks. -/
theorem detectPeaks_spec (spectrogram : List (List ℚ)) (sampleRate threshold : ℚ)
    (hsr : 0 < sampleRate) :
    (detectPeaks spectrogram sampleRate threshold none).length = spectrogram.length
      ∧ ∀ j, j < spectrogram.length →
        (∀ p : Peak, p ∈ (detectPeaks spectrogram sampleRate threshold none).getD j []
          ↔ ∃ i, 0 < i ∧ i + 1 < (spectrogram.getD j []).length
              ∧ (spectrogram.getD j []).getD (i - 1) 0 < (spectrogram.getD j []).getD i 0
              ∧ (spectrogram.getD j []).getD (i + 1) 0 < (spectrogram.getD j []).getD i 0
              ∧ threshold < (spectrogram.getD j []).getD i 0
              ∧ p = ⟨(i : ℚ) * sampleRate / (2 * ((spectrogram.getD j []).length : ℚ)),
                  (spectrogram.getD j []).getD i 0⟩)
        ∧ ((detectPeaks spectrogram sampleRate threshold none).getD j []).Chain'
            (fun p q => p.freq < q.freq)
        ∧ (∀ p ∈ (detectPeaks spectrogram sampleRate threshold none).getD j [],
            threshold < p.amp)
        ∧ ((spectrogram.getD j []).length < 3 →
            (detectPeaks spectrogram sampleRate threshold none).getD j [] = []) := by
  refine ⟨by rw [detectPeaks]; exact List.length_map _ _, ?_⟩
  intro j hj
  have hget := detectPeaks_getD_none spectrogram sampleRate threshold j hj
  have hsort : sortByKey Peak.freq
      (detectFramePeaksRaw (spectrogram.getD j []) sampleRate threshold)
      = detectFramePeaksRaw (spectrogram.getD j []) sampleRate threshold :=
    sortByKey_eq_of_chain _ _
      (detectFramePeaksRaw_chain (spectrogram.getD j []) sampleRate threshold hsr)
  rw [hsort] at hget
  refine ⟨?_, ?_, ?_, ?_⟩
  · intro p
    rw [hget, mem_detectFramePeaksRaw]
    constructor
    · rintro ⟨i, h1, h2, h3, h4, h5, rfl⟩
      exact ⟨i, h1, h2, h3, h4, h5, by rw [freq_formula]⟩
    · rintro ⟨i, h1, h2, h3, h4, h5, rfl⟩
      exact ⟨i, h1, h2, h3, h4, h5, by rw [freq_formula]⟩
  · rw [hget]
    exact detectFramePeaksRaw_chain _ _ _ hsr
  · intro p hp
    rw [hget, mem_detectFramePeaksRaw] at hp
    obtain ⟨i, -, -, -, -, h5, rfl⟩ := hp
    exact h5
  · intro hlen
    rw [hget]
    rw [List.eq_nil_iff_forall_not_mem]
    intro p hp
    rw [mem_detectFramePeaksRaw] at hp
    obtain ⟨i, h1, h2, -⟩ := hp
    omega

/-- Concrete instance of C6 on the one-frame spectrogram [[0, 5, 0]] with
sample rate 2 and threshold 1: the single interior bin is a peak. -/
theorem detectPeaks_spec_witness :
    (0 : ℚ) < 2
      ∧ (detectPeaks [[0, 5, 0]] 2 1 none).length = 1
      ∧ (⟨1/3, 5⟩ : Peak) ∈ (detectPeaks [[0, 5, 0]] 2 1 none).getD 0 [] := by
  have h := detectPeaks_spec [[0, 5, 0]] 2 1 (by norm_num)
  refine ⟨by norm_num, by simpa using h.1, ?_⟩
  have h0 := h.2 0 (by norm_num)
  refine (h0.1 _).mpr ⟨1, by with_unfolding_all decide, by with_unfolding_all decide,
    by with_unfolding_all decide, by with_unfolding_all decide,
    by with_unfolding_all decide, by with_unfolding_all decide⟩

/-- C7: with maxPeaks supplied, detectPeaks keeps per frame exactly the
last maxPeaks entries of the ascending-frequency peak list, which are the
maxPeaks peaks of highest frequency (every dropped peak has strictly lower
frequency than every kept one); a frame with at most maxPeaks peaks is
returned in full. -/
theorem detectPeaks_maxPeaks_spec (spectrogram : List (List ℚ))
    (sampleRate threshold : ℚ) (n : ℕ) (hsr : 0 < sampleRate) :
    detectPeaks spectrogram sampleRate threshold (some n)
      = (detectPeaks spectrogram sampleRate threshold none).map
          (fun fp => fp.drop (fp.length - n))
      ∧ ∀ j, j < spectrogram.length →
        (((detectPeaks spectrogram sampleRate threshold none).getD j []).length ≤ n →
          (detectPeaks spectrogram sampleRate threshold (some n)).getD j []
            = (detectPeaks spectrogram sampleRate threshold none).getD j [])
        ∧ ∀ p ∈ ((detectPeaks spectrogram sampleRate threshold none).getD j []).take
              (((detectPeaks spectrogram sampleRate threshold none).getD j []).length - n),
          ∀ q ∈ ((detectPeaks spectrogram sampleRate threshold none).getD j []).drop
              (((detectPeaks spectrogram sampleRate threshold none).getD j []).length - n),
            p.freq < q.freq := by
  have hmap : detectPeaks spectrogram sampleRate threshold (some n)
      = (detectPeaks spectrogram sampleRate threshold none).map
          (fun fp => fp.drop (fp.length - n)) := by
    rw [detectPeaks, detectPeaks, List.map_map]
    rfl
  refine ⟨hmap, ?_⟩
  intro j hj
  have hgn := detectPeaks_getD_none spectrogram sampleRate threshold j hj
  have hgs := detectPeaks_getD_some spectrogram sampleRate threshold n j hj
  refine ⟨?_, ?_⟩
  · intro hlen
    rw [hgs, hgn]
    rw [hgn] at hlen
    rw [Nat.sub_eq_zero_of_le hlen, List.drop_zero]
  · intro p hp q hq
    have hpw : ((detectPeaks spectrogram sampleRate threshold none).getD j []).Pairwise
        (fun p q => p.freq < q.freq) := by
      rw [hgn, sortByKey_eq_of_chain _ _
        (detectFramePeaksRaw_chain (spectrogram.getD j []) sampleRate threshold hsr)]
      exact detectFramePeaksRaw_pairwise _ _ _ hsr
    have hsplit := List.take_append_drop
      (((detectPeaks spectrogram sampleRate threshold none).getD j []).length - n)
      ((detectPeaks spectrogram sampleRate threshold none).getD j [])
    rw [← hsplit] at hpw
    exact (List.pairwise_append.mp hpw).2.2 p hp q hq

/-- Concrete instance of C7 on the spectrogram [[0, 5, 0, 7, 0]] with
maxPeaks 1: the higher-frequency peak is kept, the lower dropped. -/
theorem detectPeaks_maxPeaks_spec_witness :
    (0 : ℚ) < 2
      ∧ detectPeaks [[0, 5, 0, 7, 0]] 2 1 (some 1)
        = (detectPeaks [[0, 5, 0, 7, 0]] 2 1 none).map
            (fun fp => fp.drop (fp.length - 1)) := by
  have h := detectPeaks_maxPeaks_spec [[0, 5, 0, 7, 0]] 2 1 1 (by norm_num)
  exact ⟨by norm_num, h.1⟩

/-- The last element of a nonempty constant list is its element. -/
theorem getLastD_replicate (p : Peak) : ∀ (n : ℕ) (d : Peak),
    (List.replicate (n + 1) p).getLastD d = p := by
  intro n
  induction n with
  | zero => intro d; rfl
  | succ n ih =>
    intro d
    rw [List.replicate_succ, List.getLastD_cons]
    exact ih p

/-- A lone track matches the lone identical peak: findCandidateIndex of a
frequency over the singleton list holding the same frequency is index 0. -/
theorem findCandidateIndex_self (c : ℚ) : findCandidateIndex c [c] = some 0 := by
  norm_num [findCandidateIndex, sortedIndex, lodashMinBy, minByAux, matchingThreshold]

/-- A lone track whose current frequency equals the pool peak frequency
takes that peak. -/
theorem stepTrack_constant (t : Track) (p : Peak) (hlf : lastFreq t = p.freq) :
    stepTrack t [] [p] = .survive (appendPeak t p) [] := by
  simp [stepTrack, hlf, findCandidateIndex_self]

/-- One frame step of the constant single-peak input extends the single
track by one copy of the peak. -/
theorem processFrame_constant (p : Peak) (k j : ℕ) :
    processFrame ([], [⟨0, List.replicate (k + 1) p⟩]) j [p]
      = ([], [⟨0, List.replicate (k + 2) p⟩]) := by
  have hlf : lastFreq ⟨0, List.replicate (k + 1) p⟩ = p.freq := by
    rw [lastFreq, lastPeak]
    exact congrArg Peak.freq (getLastD_replicate p k _)
  rw [processFrame]
  have hsort : sortByKey lastFreq [(⟨0, List.replicate (k + 1) p⟩ : Track)]
      = [⟨0, List.replicate (k + 1) p⟩] := rfl
  rw [hsort, processTracks, stepTrack_constant _ _ hlf]
  simp [processTracks, appendPeak]
  rw [← List.replicate_succ']

/-- The frame loop of the constant single-peak input keeps one track and
appends one peak per frame. -/
theorem processFrames_constant (p : Peak) : ∀ (m k j : ℕ),
    processFrames ([], [⟨0, List.replicate (k + 1) p⟩]) j (List.replicate m [p])
      = ([], [⟨0, List.replicate (k + 1 + m) p⟩]) := by
  intro m
  induction m with
  | zero => intro k j; simp [processFrames]
  | succ m ih =>
    intro k j
    rw [show processFrames ([], [(⟨0, List.replicate (k + 1) p⟩ : Track)]) j
        (List.replicate (m + 1) [p])
      = processFrames (processFrame ([], [⟨0, List.replicate (k + 1) p⟩]) j [p]) (j + 1)
        (List.replicate m [p]) from rfl]
    rw [processFrame_constant]
    rw [show k + 2 = (k + 1) + 1 from rfl, ih (k + 1) (j + 1)]
    rw [show k + 1 + 1 + m = k + 1 + (m + 1) from by omega]

/-- C8: an input of N identical single-peak frames yields exactly one
track with birth 0 and exactly N peaks (the peak repeated), and the track
never dies: no synthetic zero-amplitude entry is appended. -/
theorem trackPartials_constant_single_track (p : Peak) (N : ℕ) (hN : 1 ≤ N) :
    trackPartials (List.replicate N [p]) = [⟨0, List.replicate N p⟩] := by
  obtain ⟨m, rfl⟩ : ∃ m, N = m + 1 := ⟨N - 1, by omega⟩
  rw [trackPartials]
  have hinit : initialTracks (List.replicate (m + 1) [p]) = [⟨0, List.replicate 1 p⟩] := by
    rw [initialTracks, List.replicate_succ]
    rfl
  have htail : (List.replicate (m + 1) [p]).tail = List.replicate m [p] := by
    rw [List.replicate_succ]
    rfl
  rw [hinit, htail, processFrames_constant p m 0 0]
  rw [show 0 + 1 + m = m + 1 from by omega]
  rfl

/-- Concrete instance of C8 with two frames of the peak (100 Hz, amp 1). -/
theorem trackPartials_constant_single_track_witness :
    1 ≤ 2
      ∧ trackPartials (List.replicate 2 [⟨100, 1⟩])
          = [⟨0, List.replicate 2 (⟨100, 1⟩ : Peak)⟩] :=
  ⟨by norm_num, trackPartials_constant_single_track ⟨100, 1⟩ 2 (by norm_num)⟩

/-- A pool is, as a multiset, the taken element plus the rest. -/
theorem multiset_getD_cons_eraseIdx : ∀ (pool : List Peak) (k : ℕ), k < pool.length →
    Multiset.ofList pool
      = pool.getD k defaultPeak ::ₘ Multiset.ofList (pool.eraseIdx k) := by
  intro pool
  induction pool with
  | nil => intro k hk; simp at hk
  | cons a l ih =>
    intro k hk
    cases k with
    | zero => simp [List.eraseIdx]
    | succ k =>
      rw [List.getD_cons_succ,
        show List.eraseIdx (a :: l) (k + 1) = a :: List.eraseIdx l k from rfl,
        ← Multiset.cons_coe, ← Multiset.cons_coe, ih k (by simpa using hk),
        Multiset.cons_swap]

/-- A surviving stepTrack result takes exactly one in-range pool element:
the appended peak, with the pool reduced at its index. -/
theorem stepTrack_survive_eq (track : Track) (rest : List Track) (pool : List Peak)
    (t' : Track) (pool' : List Peak)
    (h : stepTrack track rest pool = .survive t' pool') :
    ∃ k, k < pool.length ∧ t' = appendPeak track (pool.getD k defaultPeak)
      ∧ pool' = pool.eraseIdx k := by
  rcases hk : findCandidateIndex (lastFreq track) (List.map Peak.freq pool) with _ | k
  · simp only [stepTrack, hk] at h
    exact StepResult.noConfusion h
  · have hklen : k < pool.length := by
      simpa using findCandidateIndex_some_lt _ _ _ hk
    simp only [stepTrack, hk] at h
    rcases hposs : findCandidateIndex ((List.map Peak.freq pool).getD k 0)
        (List.map lastFreq (track :: rest)) with _ | j
    · simp only [hposs] at h
      by_cases hlow : k = 0
          ∨ matchingThreshold < |(List.map Peak.freq pool).getD (k - 1) 0 - lastFreq track|
      · rw [if_pos hlow] at h
        exact StepResult.noConfusion h
      · rw [if_neg hlow] at h
        injection h with h1 h2
        exact ⟨k - 1, by omega, h1.symm, h2.symm⟩
    · simp only [hposs] at h
      by_cases hval : (List.map lastFreq (track :: rest)).getD j 0 = lastFreq track
      · rw [if_pos hval] at h
        injection h with h1 h2
        exact ⟨k, hklen, h1.symm, h2.symm⟩
      · rw [if_neg hval] at h
        by_cases hlow : k = 0
            ∨ matchingThreshold < |(List.map Peak.freq pool).getD (k - 1) 0 - lastFreq track|
        · rw [if_pos hlow] at h
          exact StepResult.noConfusion h
        · rw [if_neg hlow] at h
          injection h with h1 h2
          exact ⟨k - 1, by omega, h1.symm, h2.symm⟩

/-- Conservation through one frame of the per-track loop: the pool equals,
as a multiset, the peaks appended to the surviving tracks plus the peaks
left over for births.  Dying tracks take nothing from the pool. -/
theorem processTracks_pool_conservation : ∀ (ts : List Track) (pool : List Peak),
    Multiset.ofList pool
      = Multiset.ofList ((processTracks ts pool).2.1.map lastPeak)
        + Multiset.ofList (processTracks ts pool).2.2 := by
  intro ts
  induction ts with
  | nil => intro pool; simp [processTracks]
  | cons t rest ih =>
    intro pool
    cases hstep : stepTrack t rest pool with
    | death t' =>
      simp only [processTracks, hstep]
      simpa using ih pool
    | survive t' pool' =>
      obtain ⟨k, hklen, ht', hpool'⟩ := stepTrack_survive_eq t rest pool t' pool' hstep
      have hlast : lastPeak t' = pool.getD k defaultPeak := by
        rw [ht', lastPeak, appendPeak, List.getLastD_concat]
      simp only [processTracks, hstep]
      simp only [List.map_cons, ← Multiset.cons_coe, Multiset.cons_add]
      rw [hlast, ← ih pool', hpool']
      exact multiset_getD_cons_eraseIdx pool k hklen

/-- Each first-frame peak seeds exactly one bootstrap track. -/
theorem countP_singleton_tracks (l : List Peak) (q : Peak) (hd : l.Nodup) (hq : q ∈ l) :
    ((l.map (fun peak => Track.mk 0 [peak])).countP
      (fun t => decide (t.peaks = [q]))) = 1 := by
  induction l with
  | nil => simp at hq
  | cons a l ih =>
    rw [List.map_cons, List.countP_cons]
    by_cases haq : a = q
    · subst haq
      have hnl : a ∉ l := (List.nodup_cons.mp hd).1
      have hz : ((l.map (fun peak => Track.mk 0 [peak])).countP
          (fun t => decide (t.peaks = [a]))) = 0 := by
        rw [List.countP_eq_zero]
        intro t ht
        obtain ⟨b, hb, rfl⟩ := List.mem_map.mp ht
        simp only [decide_eq_true_eq, List.cons.injEq, and_true]
        intro hbq
        exact hnl (hbq ▸ hb)
      rw [hz]
      simp
    · have hq2 : q ∈ l := by
        rcases List.mem_cons.mp hq with h | h
        · exact absurd h.symm haq
        · exact h
      have hfalse : decide ((Track.mk 0 [a]).peaks = [q]) = false := by
        simp only [decide_eq_false_iff_not]
        intro h
        exact haq (by simpa using h)
      rw [hfalse]
      simpa using ih (List.nodup_cons.mp hd).2 hq2

/-- C9: on frames whose peaks are pairwise distinct within each frame,
every peak p of a later frame is received by exactly one track during that
frame step of trackPartials: the counts of surviving tracks whose newly
appended last peak is p and of new-born tracks whose real-onset entry
(position 1) is p sum to one, so a matched peak is removed from the pool
and no second track can take it; and every peak of the first frame seeds
exactly one bootstrap track. -/
theorem trackPartials_peak_conservation (frames : List (List Peak)) (f : ℕ) (p : Peak)
    (hf : f + 1 < frames.length) (hd : (frames.getD (f + 1) []).Nodup)
    (hp : p ∈ frames.getD (f + 1) []) :
    ((processTracks (sortByKey lastFreq (stateAfter frames f).2)
          (frames.getD (f + 1) [])).2.1.map lastPeak).count p
      + ((processTracks (sortByKey lastFreq (stateAfter frames f).2)
          (frames.getD (f + 1) [])).2.2.map
            (fun peak => Track.mk f [⟨peak.freq, 0⟩, peak])).countP
          (fun t => t.peaks.getD 1 defaultPeak == p) = 1
      ∧ ((frames.getD 0 []).Nodup → ∀ q ∈ frames.getD 0 [],
          ((initialTracks frames).countP (fun t => decide (t.peaks = [q]))) = 1) := by
  constructor
  · have hcons := processTracks_pool_conservation
      (sortByKey lastFreq (stateAfter frames f).2) (frames.getD (f + 1) [])
    have hcount := congrArg (Multiset.count p) hcons
    rw [Multiset.count_add, Multiset.coe_count, Multiset.coe_count,
      Multiset.coe_count] at hcount
    rw [List.countP_map]
    show ((processTracks (sortByKey lastFreq (stateAfter frames f).2)
          (frames.getD (f + 1) [])).2.1.map lastPeak).count p
      + (processTracks (sortByKey lastFreq (stateAfter frames f).2)
          (frames.getD (f + 1) [])).2.2.count p = 1
    rw [← hcount]
    exact List.count_eq_one_of_mem hd hp
  · intro hd0 q hq
    have hhead : frames.headD [] = frames.getD 0 [] := by
      cases frames with
      | nil => rfl
      | cons a l => rfl
    rw [initialTracks, hhead]
    exact countP_singleton_tracks (frames.getD 0 []) q hd0 hq

/-- Concrete instance of C9: two frames, one peak each within the radius;
the 110 Hz peak of frame 1 is received by exactly one track. -/
theorem trackPartials_peak_conservation_witness :
    ((processTracks (sortByKey lastFreq (stateAfter [[⟨100, 1⟩], [⟨110, 2⟩]] 0).2)
          ([[(⟨100, 1⟩ : Peak)], [⟨110, 2⟩]].getD (0 + 1) [])).2.1.map lastPeak).count
        (⟨110, 2⟩ : Peak)
      + ((processTracks (sortByKey lastFreq (stateAfter [[⟨100, 1⟩], [⟨110, 2⟩]] 0).2)
          ([[(⟨100, 1⟩ : Peak)], [⟨110, 2⟩]].getD (0 + 1) [])).2.2.map
            (fun peak => Track.mk 0 [⟨peak.freq, 0⟩, peak])).countP
          (fun t => t.peaks.getD 1 defaultPeak == (⟨110, 2⟩ : Peak)) = 1
      ∧ (([[(⟨100, 1⟩ : Peak)], [⟨110, 2⟩]].getD 0 []).Nodup →
          ∀ q ∈ [[(⟨100, 1⟩ : Peak)], [⟨110, 2⟩]].getD 0 [],
          ((initialTracks [[⟨100, 1⟩], [⟨110, 2⟩]]).countP
            (fun t => decide (t.peaks = [q]))) = 1) :=
  trackPartials_peak_conservation [[⟨100, 1⟩], [⟨110, 2⟩]] 0 ⟨110, 2⟩
    (by norm_num) (by with_unfolding_all decide) (by with_unfolding_all decide)

/-- The frame loop splits over an appended frame list, with the running
index advanced by the length of the first part. -/
theorem processFrames_append (l1 : List (List Peak)) :
    ∀ (st : List Track × List Track) (j : ℕ) (l2 : List (List Peak)),
    processFrames st j (l1 ++ l2)
      = processFrames (processFrames st j l1) (j + l1.length) l2 := by
  induction l1 with
  | nil => intro st j l2; simp [processFrames]
  | cons a l1 ih =>
    intro st j l2
    simp only [List.cons_append, processFrames]
    rw [List.append_eq, ih]
    have harith : j + 1 + l1.length = j + (l1.length + 1) := by omega
    rw [List.length_cons, harith]

/-- Unfolding one more frame of the tracker state. -/
theorem stateAfter_succ (frames : List (List Peak)) (n : ℕ)
    (h : n < frames.tail.length) :
    stateAfter frames (n + 1)
      = processFrame (stateAfter frames n) n (frames.tail.getD n []) := by
  rw [stateAfter, stateAfter]
  have htake : frames.tail.take (n + 1)
      = frames.tail.take n ++ [frames.tail.getD n []] := by
    rw [List.take_succ, List.getElem?_eq_getElem h, List.getD_eq_getElem _ _ h]
    rfl
  rw [htake, processFrames_append]
  have hlen : (frames.tail.take n).length = n := by
    rw [List.length_take]
    omega
  rw [hlen]
  simp [processFrames]

/-- C1 (amended): every peak of frame f (f > 0) left unmatched after all
active tracks are processed starts a new track whose birth field equals
f - 1 (the forEach index over the post-first-frame iteration) and whose
peaks sequence is the synthetic zero-amplitude entry followed by the real
peak; the new active set is the survivors followed by these births. -/
theorem trackPartials_birth_amended (frames : List (List Peak)) (f : ℕ)
    (h1 : 0 < f) (hlt : f < frames.length) :
    (stateAfter frames f).2
      = (processTracks (sortByKey lastFreq (stateAfter frames (f - 1)).2)
          (frames.getD f [])).2.1
        ++ ((processTracks (sortByKey lastFreq (stateAfter frames (f - 1)).2)
          (frames.getD f [])).2.2).map
            (fun peak => Track.mk (f - 1) [⟨peak.freq, 0⟩, peak]) := by
  obtain ⟨n, rfl⟩ : ∃ n, f = n + 1 := ⟨f - 1, by omega⟩
  have hn : n < frames.tail.length := by
    rw [List.length_tail]
    omega
  rw [stateAfter_succ frames n hn]
  have hget : frames.tail.getD n [] = frames.getD (n + 1) [] := by
    cases frames with
    | nil => simp at hlt
    | cons a l =>
      rw [List.getD_cons_succ]
      rfl
  rw [hget]
  simp only [processFrame, Nat.add_sub_cancel]

/-- Concrete instance of the amended C1 statement: the sole peak of frame
1 is unmatched and becomes a birth with field 1 - 1 = 0. -/
theorem trackPartials_birth_amended_witness :
    0 < 1 ∧ 1 < 2
      ∧ (stateAfter [[], [⟨100, 1⟩]] 1).2
        = (processTracks (sortByKey lastFreq (stateAfter [[], [⟨100, 1⟩]] (1 - 1)).2)
            ([[], [(⟨100, 1⟩ : Peak)]].getD 1 [])).2.1
          ++ ((processTracks (sortByKey lastFreq (stateAfter [[], [⟨100, 1⟩]] (1 - 1)).2)
            ([[], [(⟨100, 1⟩ : Peak)]].getD 1 [])).2.2).map
              (fun peak => Track.mk (1 - 1) [⟨peak.freq, 0⟩, peak]) :=
  ⟨by norm_num, by norm_num,
   trackPartials_birth_amended [[], [⟨100, 1⟩]] 1 (by norm_num) (by norm_num)⟩

/-- A fold of length-preserving steps preserves the buffer length. -/
theorem foldl_length_eq {α : Type} (g : List ℚ → α → List ℚ)
    (h : ∀ b a, (g b a).length = b.length) :
    ∀ (l : List α) (buf : List ℚ), (l.foldl g buf).length = buf.length := by
  intro l
  induction l with
  | nil => intro buf; rfl
  | cons a l ih => intro buf; rw [List.foldl_cons, ih, h]

/-- A fold of steps that each leave index j unchanged leaves it unchanged. -/
theorem foldl_getD_eq_of_mem {α : Type} (g : List ℚ → α → List ℚ) (j : ℕ) :
    ∀ (l : List α), (∀ b a, a ∈ l → (g b a).getD j 0 = b.getD j 0) →
    ∀ buf, (l.foldl g buf).getD j 0 = buf.getD j 0 := by
  intro l
  induction l with
  | nil => intro h buf; rfl
  | cons a l ih =>
    intro h buf
    rw [List.foldl_cons, ih (fun b x hx => h b x (List.mem_cons_of_mem _ hx))]
    exact h buf a (List.mem_cons_self _ _)

/-- Accumulating one sample does not change the buffer length. -/
theorem writeSample_length (buf : List ℚ) (i : ℕ) (v : ℚ) :
    (writeSample buf i v).length = buf.length := by
  rw [writeSample, List.length_set]

/-- Accumulating one sample leaves other indices unchanged. -/
theorem writeSample_getD_ne (buf : List ℚ) (i j : ℕ) (v : ℚ) (h : i ≠ j) :
    (writeSample buf i v).getD j 0 = buf.getD j 0 := by
  simp only [writeSample, List.getD_eq_getElem?_getD]
  rw [List.getElem?_set_ne h]

/-- A segment does not change the buffer length. -/
theorem writeSegment_length (s : ℚ → ℚ) (sr : ℚ) (frameLen : ℕ) (p q : Peak)
    (i0 : ℕ) (buf : List ℚ) :
    (writeSegment s sr frameLen p q i0 buf).length = buf.length := by
  rw [writeSegment]
  exact foldl_length_eq _ (fun b t => writeSample_length _ _ _) _ _

/-- A segment writes only below index i0 + frameLen. -/
theorem writeSegment_getD_high (s : ℚ → ℚ) (sr : ℚ) (frameLen : ℕ) (p q : Peak)
    (i0 : ℕ) (buf : List ℚ) (j : ℕ) (hj : i0 + frameLen ≤ j) :
    (writeSegment s sr frameLen p q i0 buf).getD j 0 = buf.getD j 0 := by
  rw [writeSegment]
  refine foldl_getD_eq_of_mem _ j _ ?_ _
  intro b t ht
  rw [List.mem_range] at ht
  exact writeSample_getD_ne _ _ _ _ (by omega)

/-- Rendering a track does not change the buffer length. -/
theorem renderTrack_length (s : ℚ → ℚ) (sr : ℚ) (frameLen : ℕ) (buf : List ℚ)
    (tr : Track) : (renderTrack s sr frameLen buf tr).length = buf.length := by
  rw [renderTrack]
  exact foldl_length_eq _ (fun b idxp => writeSegment_length _ _ _ _ _ _ _) _ _

/-- A track renders only its peaks.length - 1 segments: it never writes at
or beyond sample index (birth + peaks.length - 1) * frameLen. -/
theorem renderTrack_getD_high (s : ℚ → ℚ) (sr : ℚ) (frameLen : ℕ) (buf : List ℚ)
    (tr : Track) (j : ℕ)
    (hj : (tr.birth + tr.peaks.length - 1) * frameLen ≤ j) :
    (renderTrack s sr frameLen buf tr).getD j 0 = buf.getD j 0 := by
  rw [renderTrack]
  refine foldl_getD_eq_of_mem _ j _ ?_ _
  intro b idxp hidxp
  rw [List.mem_range] at hidxp
  refine writeSegment_getD_high _ _ _ _ _ _ _ _ ?_
  have heq : (tr.birth + idxp) * frameLen + frameLen
      = (tr.birth + idxp + 1) * frameLen := by ring
  rw [heq]
  exact le_trans (Nat.mul_le_mul_right _ (by omega)) hj

/-- The initial accumulator of a fold of max bounds itself. -/
theorem le_foldl_max_init : ∀ (l : List ℕ) (a : ℕ), a ≤ l.foldl max a := by
  intro l
  induction l with
  | nil => intro a; exact le_refl a
  | cons b l ih =>
    intro a
    rw [List.foldl_cons]
    exact le_trans (le_max_left a b) (ih (max a b))

/-- Every member of a list bounds itself by the fold of max. -/
theorem le_foldl_max_mem : ∀ (l : List ℕ) (a x : ℕ), x ∈ l → x ≤ l.foldl max a := by
  intro l
  induction l with
  | nil => intro a x h; simp at h
  | cons b l ih =>
    intro a x h
    rw [List.foldl_cons]
    rcases List.mem_cons.mp h with rfl | h2
    · exact le_trans (le_max_right a x) (le_foldl_max_init l (max a x))
    · exact ih (max a b) x h2

/-- Every track ends at or before the shared frame extent. -/
theorem le_numFrames (tracks : List Track) (tr : Track) (h : tr ∈ tracks) :
    tr.birth + tr.peaks.length ≤ numFrames tracks := by
  rw [numFrames]
  exact le_foldl_max_mem _ 0 _ (List.mem_map_of_mem _ h)

/-- The rendered buffer has the documented length. -/
theorem renderedBuffer_length (s : ℚ → ℚ) (tracks : List Track) (frameLen : ℕ)
    (sr : ℚ) :
    (renderedBuffer s tracks frameLen sr).length = numFrames tracks * frameLen := by
  rw [renderedBuffer,
    foldl_length_eq _ (fun b tr => renderTrack_length _ _ _ _ _) _ _,
    List.length_replicate]

/-- No track writes into the final frameLen sample positions: the rendered
buffer is zero there. -/
theorem renderedBuffer_getD_high (s : ℚ → ℚ) (tracks : List Track) (frameLen : ℕ)
    (sr : ℚ) (j : ℕ) (hj : (numFrames tracks - 1) * frameLen ≤ j) :
    (renderedBuffer s tracks frameLen sr).getD j 0 = 0 := by
  rw [renderedBuffer]
  rw [foldl_getD_eq_of_mem _ j _ ?_ _]
  · rw [List.getD_eq_getElem?_getD, List.getElem?_replicate]
    split
    · rfl
    · rfl
  · intro b tr htr
    refine renderTrack_getD_high _ _ _ _ _ _ ?_
    have hb := le_numFrames tracks tr htr
    exact le_trans (Nat.mul_le_mul_right _ (by omega)) hj

/-- C10: for a nonempty track list whose rendered buffer has nonzero
maximum magnitude, synthesize returns a buffer of length
numFrames * frameLen whose final frameLen samples are all exactly 0: each
track renders only peaks.length - 1 segments, so nothing is written into
the last frame, and normalizing a zero sample by the nonzero maximum
yields exactly zero. -/
theorem synthesize_tail_zero (s : ℚ → ℚ) (tracks : List Track) (frameLen : ℕ)
    (samplingRate : ℚ) (hne : tracks ≠ [])
    (hmax : maxAbs (renderedBuffer s tracks frameLen samplingRate) ≠ 0) :
    ∃ out, synthesize s tracks frameLen samplingRate = some out
      ∧ out.length = numFrames tracks * frameLen
      ∧ ∀ j, (numFrames tracks - 1) * frameLen ≤ j →
          j < numFrames tracks * frameLen → out.getD j none = some 0 := by
  have hlen := renderedBuffer_length s tracks frameLen samplingRate
  refine ⟨(renderedBuffer s tracks frameLen samplingRate).map
    (fun x => jsDiv x (maxAbs (renderedBuffer s tracks frameLen samplingRate))),
    ?_, ?_, ?_⟩
  · cases tracks with
    | nil => exact absurd rfl hne
    | cons a l => rfl
  · rw [List.length_map, hlen]
  · intro j hj1 hj2
    have hz := renderedBuffer_getD_high s tracks frameLen samplingRate j hj1
    have hjlen : j < (renderedBuffer s tracks frameLen samplingRate).length := by
      rw [hlen]
      exact hj2
    rw [List.getD_eq_getElem?_getD, List.getElem?_map,
      List.getElem?_eq_getElem hjlen]
    have hval : (renderedBuffer s tracks frameLen samplingRate)[j] = 0 := by
      rw [← List.getD_eq_getElem _ _ hjlen]
      exact hz
    simp [hval, jsDiv, hmax]

/-- Concrete instance of C10: one two-peak track at amplitude 1 with a
nonzero rendered buffer; the final sample of the output is exactly 0. -/
theorem synthesize_tail_zero_witness :
    ([(⟨0, [⟨0, 1⟩, ⟨0, 1⟩]⟩ : Track)] ≠ [])
      ∧ maxAbs (renderedBuffer (fun _ => 1) [⟨0, [⟨0, 1⟩, ⟨0, 1⟩]⟩] 1 1) ≠ 0
      ∧ ∃ out, synthesize (fun _ => 1) [⟨0, [⟨0, 1⟩, ⟨0, 1⟩]⟩] 1 1 = some out
          ∧ out.length = numFrames [⟨0, [⟨0, 1⟩, ⟨0, 1⟩]⟩] * 1
          ∧ ∀ j, (numFrames [(⟨0, [⟨0, 1⟩, ⟨0, 1⟩]⟩ : Track)] - 1) * 1 ≤ j →
              j < numFrames [(⟨0, [⟨0, 1⟩, ⟨0, 1⟩]⟩ : Track)] * 1 →
              out.getD j none = some 0 :=
  ⟨by with_unfolding_all decide, by with_unfolding_all decide,
   synthesize_tail_zero (fun _ => 1) [⟨0, [⟨0, 1⟩, ⟨0, 1⟩]⟩] 1 1
     (by with_unfolding_all decide) (by with_unfolding_all decide)⟩
